import Mathlib

/-!
Verification of the ektachrome token-resolution and CSS source-rewriting
subsystem.  The JavaScript sources are shallowly embedded: JS strings are
modelled as `List Char` (with `String` at the API surface), the hand-rolled
regular expressions are unfolded into explicit character scans that follow
the exact greedy/backtracking semantics of the source patterns, and the
line-oriented brace/selector state machines are explicit folds.
-/

namespace Ektachrome

/-- JS whitespace (the characters of `\s` that can occur in the ASCII CSS
    texts handled here, and the set trimmed by `String.prototype.trim`):
    space, tab, newline, carriage return, vertical tab, form feed. -/
def isSpaceJS (c : Char) : Bool :=
  c = ' ' || c = '\t' || c = '\n' || c = '\r' || c = '\x0b' || c = '\x0c'

/-- The character class `[\w-]` of the declaration regex in
    `extractVariables`: ASCII letters, digits, underscore, hyphen. -/
def isWordDash (c : Char) : Bool :=
  ('a' ≤ c && c ≤ 'z') || ('A' ≤ c && c ≤ 'Z') || ('0' ≤ c && c ≤ '9') ||
    c = '_' || c = '-'

/-- `String.prototype.trim`: strip leading and trailing whitespace. -/
def trimJS (l : List Char) : List Char :=
  ((l.dropWhile isSpaceJS).reverse.dropWhile isSpaceJS).reverse

/-- Fuelled body of `squashWS`; the fuel only bounds the recursion depth
    and `squashWS` always supplies enough of it. -/
def squashWSF : Nat → List Char → List Char
  | 0, _ => []
  | _, [] => []
  | fuel + 1, c :: rest =>
    if isSpaceJS c then ' ' :: squashWSF fuel (rest.dropWhile isSpaceJS)
    else c :: squashWSF fuel rest

/-- `.replace(/\s+/g, ' ')`: collapse every whitespace run to one space. -/
def squashWS (l : List Char) : List Char := squashWSF l.length l

/-- Helper for comment stripping: drop everything up to and including the
    first `*/`; `none` when no `*/` follows (the lazy regex then fails). -/
def dropToClose : List Char → Option (List Char)
  | [] => none
  | c :: rest =>
    if c = '*' ∧ rest.head? = some '/' then some rest.tail
    else dropToClose rest

/-- Fuelled body of `removeComments`. -/
def removeCommentsF : Nat → List Char → List Char
  | 0, _ => []
  | _, [] => []
  | fuel + 1, '/' :: '*' :: rest =>
    match dropToClose rest with
    | some rest2 => removeCommentsF fuel rest2
    | none => '/' :: removeCommentsF fuel ('*' :: rest)
  | fuel + 1, c :: rest => c :: removeCommentsF fuel rest

/-- `cssContent.replace(/\/\*[\s\S]*?\*\//g, '')` from `extractVariables`:
    each `/*` paired lazily with the nearest following `*/` is removed; an
    unterminated `/*` stays in the text (the lazy pattern needs its
    terminator to match). -/
def removeComments (l : List Char) : List Char := removeCommentsF l.length l

/-- Literal head `var(--` of both regexes of `extractVarReferences`. -/
def varOpen : List Char := ['v', 'a', 'r', '(', '-', '-']

/-- Fuelled body of `extractMatches`. -/
def extractMatchesF : Nat → List Char → List (List Char)
  | 0, _ => []
  | _, [] => []
  | fuel + 1, c :: rest =>
    if varOpen.isPrefixOf (c :: rest) then
      let body := ((c :: rest).drop 6).takeWhile (fun ch => ch ≠ ')')
      if body.isEmpty then extractMatchesF fuel rest
      else if ((c :: rest).drop (6 + body.length)).head? = some ')' then
        (varOpen ++ body ++ [')']) ::
          extractMatchesF fuel ((c :: rest).drop (7 + body.length))
      else extractMatchesF fuel rest
    else extractMatchesF fuel rest

/-- `value.match(/var\(--[^)]+\)/g)` from `extractVarReferences`
    (src/src/utils/claude-client.js): a global left-to-right scan; at each
    position the pattern matches when `var(--` is followed by at least one
    character other than `)` and then a `)`; the scan resumes after each
    match and advances one character after a failure. -/
def extractMatches (l : List Char) : List (List Char) := extractMatchesF l.length l

/-- `v.match(/var\((--[^,)]+)/)?.[1]` from `extractVarReferences`: the
    leftmost occurrence of `var(` followed by `--` and at least one
    character that is neither `,` nor `)`; the capture is `--` plus that
    maximal run. -/
def capturedName : List Char → Option (List Char)
  | [] => none
  | c :: rest =>
    if varOpen.isPrefixOf (c :: rest) then
      let body := ((c :: rest).drop 6).takeWhile (fun ch => ch ≠ ',' && ch ≠ ')')
      if body.isEmpty then capturedName rest
      else some ('-' :: '-' :: body)
    else capturedName rest

/-- `extractVarReferences` (src/src/utils/claude-client.js:157-164): list
    every `var(...)` occurrence, extract each referenced name, drop the
    occurrences whose name capture fails.  No deduplication is performed. -/
def extractVarReferences (value : String) : List String :=
  ((extractMatches value.data).filterMap capturedName).map List.asString

/-! ## The declaration-line pattern of `updateVariable`

`new RegExp("^(\\s*)(NAME)(\\s*:\\s*)([^;]+)(;)")` with `NAME` the
regex-escaped variable name.  The groups are captured with the engine's
greedy-with-backtracking semantics, unfolded here:

* group 1 (`\s*`) tries the maximal whitespace run first and backs off one
  character at a time until the rest of the pattern matches;
* the escaped name is a literal;
* the `\s*` before `:` is exact (a shorter run would leave a whitespace
  character where `:` is required);
* the `\s*` after `:` takes the maximal whitespace run `w` unless the run
  reaches the first `;` (at index `p`), in which case it backs off to
  leave one character for `[^;]+`, i.e. it consumes `min w (p-1)`;
* group 4 (`[^;]+`) is the rest up to the first `;`, which must exist and
  must leave the group nonempty. -/

/-- Captured pieces of a matched declaration line: group 1 (`indent`),
    group 3 (`sep`, the colon with surrounding whitespace), group 4
    (`value`), and the text `after` the matched `;` (not captured, and
    dropped by the rewrite). -/
structure LineMatch where
  indent : List Char
  sep : List Char
  value : List Char
  after : List Char
deriving Repr, DecidableEq

/-- The character class `[^;]`. -/
def notSemi (ch : Char) : Bool := ch ≠ ';'

/-- The `\s*([^;]+);` tail of the pattern, applied to the text after the
    colon; returns (whitespace consumed after the colon, group 4, text
    after the `;`). -/
def matchValueAfterColon (s : List Char) : Option (List Char × List Char × List Char) :=
  let w := (s.takeWhile isSpaceJS).length
  let p := (s.takeWhile notSemi).length
  if p < s.length then
    if p = 0 then none
    else
      let k := min w (p - 1)
      some (s.take k, (s.drop k).take (p - k), s.drop (p + 1))
  else none

/-- Match `NAME(\s*:\s*)([^;]+)(;)` at the start of `s` (the line with its
    indent already removed); returns (group 3, group 4, text after `;`). -/
def matchNameAt (varName s : List Char) : Option (List Char × List Char × List Char) :=
  if varName.isPrefixOf s then
    let rest2 := s.drop varName.length
    let ws1 := rest2.takeWhile isSpaceJS
    match rest2.drop ws1.length with
    | ':' :: rest4 =>
      (matchValueAfterColon rest4).map
        (fun t => (ws1 ++ ':' :: t.1, t.2.1, t.2.2))
    | _ => none
  else none

/-- Backtracking over the length of group 1, longest candidate first. -/
def matchDeclLineAux (varName line : List Char) : Nat → Option LineMatch
  | 0 =>
    (matchNameAt varName line).map (fun t => ⟨[], t.1, t.2.1, t.2.2⟩)
  | k + 1 =>
    match matchNameAt varName (line.drop (k + 1)) with
    | some t => some ⟨line.take (k + 1), t.1, t.2.1, t.2.2⟩
    | none => matchDeclLineAux varName line k

/-- `line.match(pattern)` for the declaration pattern of `updateVariable`
    built for `varName` (part_011:449). -/
def matchDeclLine (varName line : List Char) : Option LineMatch :=
  matchDeclLineAux varName line (line.takeWhile isSpaceJS).length

/-- The replacement line `match[1] + match[2] + match[3] + newValue +
    match[5]` built at part_011:462: indent, name, separator, new value,
    semicolon — anything after the original semicolon is dropped. -/
def rewriteLine (varName newValue : List Char) (m : LineMatch) : List Char :=
  m.indent ++ varName ++ m.sep ++ newValue ++ [';']

/-! ## Brace-depth / selector tracking of `updateVariable` (part_011:411-477) -/

/-- The mutable scan variables of `updateVariable`: `braceDepth` (an `Int`:
    the JS counter is decremented unconditionally and can go negative),
    `currentSelector`, and the accumulator (`selectorStart` in
    `updateVariable`, `selectorBuffer` in `extractVariables`). -/
structure ScanState where
  depth : Int
  currentSelector : List Char
  buffer : List Char
deriving Repr, DecidableEq

/-- Initial scan state. -/
def initState : ScanState := ⟨0, [], []⟩

/-- The character loop of `updateVariable` over one line: `j` is the index
    of the current character in `line` (needed for `line.slice(0, j)`).
    On `{` at depth 0 the selector becomes
    `(selectorStart + line.slice(0,j).trim()).trim()`; on `}` returning to
    depth 0 only `currentSelector` is cleared. -/
def scanBracesAux (line : List Char) : List Char → Nat → ScanState → ScanState
  | [], _, st => st
  | c :: cs, j, st =>
    let st1 :=
      if c = '\x7b' then
        if st.depth = 0 then
          ⟨st.depth + 1, trimJS (st.buffer ++ trimJS (line.take j)), []⟩
        else ⟨st.depth + 1, st.currentSelector, st.buffer⟩
      else if c = '\x7d' then
        if st.depth - 1 = 0 then ⟨st.depth - 1, [], st.buffer⟩
        else ⟨st.depth - 1, st.currentSelector, st.buffer⟩
      else st
    scanBracesAux line cs (j + 1) st1

/-- Per-line state update of `updateVariable`: the character loop, then
    `if (!line.includes('{') && !line.includes('}') && braceDepth === 0)
    selectorStart += line`. -/
def lineStateUpdate (st : ScanState) (line : List Char) : ScanState :=
  let st1 := scanBracesAux line line 0 st
  if ¬ line.contains '\x7b' ∧ ¬ line.contains '\x7d' ∧ st1.depth = 0 then
    ⟨st1.depth, st1.currentSelector, st1.buffer ++ line⟩
  else st1

/-- A declaration hit while scanning: the regex match of the line and the
    `currentSelector` in force after the line's character loop. -/
structure DeclHit where
  m : LineMatch
  sel : List Char
deriving Repr, DecidableEq

/-- Pure scan of `updateVariable`'s loop: one entry per line, `some` when
    the line matches the declaration pattern with `braceDepth > 0`.  The
    rewriting never feeds back into the scan (`lines[i]` is replaced in the
    output array only), so this scan determines all hits. -/
def scanLineHits (v : List Char) : List (List Char) → ScanState → List (Option DeclHit)
  | [], _ => []
  | line :: rest, st =>
    let st1 := lineStateUpdate st line
    let hit : Option DeclHit :=
      match matchDeclLine v line with
      | some m => if st1.depth > 0 then some ⟨m, st1.currentSelector⟩ else none
      | none => none
    hit :: scanLineHits v rest st1

/-- The main loop of `updateVariable` over the line array: returns the
    output lines, `occurrences`, and `changed`.  With `sel = none` the
    first updated line ends the loop (`break`), the remaining lines are
    copied unchanged; with `sel = some s` every matching line with
    `s = "*"` or `currentSelector = s` is rewritten and scanning
    continues. -/
def updateLinesAux (v nv : List Char) (sel : Option (List Char)) :
    List (List Char) → ScanState → Bool → Nat → List (List Char) × Nat × Bool
  | [], _, chg, occ => ([], occ, chg)
  | line :: rest, st, chg, occ =>
    let st1 := lineStateUpdate st line
    match matchDeclLine v line with
    | some m =>
      if st1.depth > 0 then
        match sel with
        | none =>
          if chg then
            let r := updateLinesAux v nv sel rest st1 chg (occ + 1)
            (line :: r.1, r.2.1, r.2.2)
          else (rewriteLine v nv m :: rest, occ + 1, true)
        | some s =>
          if s = ['*'] ∨ st1.currentSelector = s then
            let r := updateLinesAux v nv sel rest st1 true (occ + 1)
            (rewriteLine v nv m :: r.1, r.2.1, r.2.2)
          else
            let r := updateLinesAux v nv sel rest st1 chg (occ + 1)
            (line :: r.1, r.2.1, r.2.2)
      else
        let r := updateLinesAux v nv sel rest st1 chg occ
        (line :: r.1, r.2.1, r.2.2)
    | none =>
      let r := updateLinesAux v nv sel rest st1 chg occ
      (line :: r.1, r.2.1, r.2.2)

/-- `cssContent.split('\n')`: split on every newline, keeping empty
    pieces (`"".split('\n')` is `[""]`). -/
def splitLines : List Char → List (List Char)
  | [] => [[]]
  | c :: rest =>
    if c = '\n' then [] :: splitLines rest
    else
      match splitLines rest with
      | [] => [[c]]
      | l :: ls => (c :: l) :: ls

/-- `lines.join('\n')`. -/
def joinLines : List (List Char) → List Char
  | [] => []
  | [l] => l
  | l :: l2 :: ls => l ++ '\n' :: joinLines (l2 :: ls)

/-- Result record `{content, changed, occurrences}` of `updateVariable`. -/
structure UpdateResult where
  content : String
  changed : Bool
  occurrences : Nat
deriving Repr, DecidableEq

/-- `updateVariable(cssContent, varName, newValue, selector)`
    (part_011:411-477).  `selector = none` models the omitted / `null`
    argument. -/
def updateVariable (cssContent varName newValue : String)
    (selector : Option String) : UpdateResult :=
  let r := updateLinesAux varName.data newValue.data (selector.map String.data)
    (splitLines cssContent.data) initState false 0
  ⟨(joinLines r.1).asString, r.2.2, r.2.1⟩

/-! ## Basic lemmas about the embedding -/

theorem asString_data (s : String) : s.data.asString = s := by
  cases s; rfl

theorem data_asString (l : List Char) : (List.asString l).data = l := rfl

theorem splitLines_ne_nil (l : List Char) : splitLines l ≠ [] := by
  induction l with
  | nil => simp [splitLines]
  | cons c rest ih =>
    rw [splitLines]
    split
    · simp
    · split <;> simp

theorem joinLines_splitLines (l : List Char) : joinLines (splitLines l) = l := by
  induction l with
  | nil => simp [splitLines, joinLines]
  | cons c rest ih =>
    rw [splitLines]
    split
    · rename_i hc
      subst hc
      cases hs : splitLines rest with
      | nil => exact absurd hs (splitLines_ne_nil rest)
      | cons a as =>
        rw [joinLines]
        rw [hs] at ih
        cases as with
        | nil => simp [joinLines] at ih ⊢; exact ih
        | cons b bs => simp [← ih, joinLines]
    · cases hs : splitLines rest with
      | nil => exact absurd hs (splitLines_ne_nil rest)
      | cons a as =>
        rw [hs] at ih
        cases as with
        | nil => simp [joinLines] at ih ⊢; exact ih
        | cons b bs => simp [joinLines] at ih ⊢; exact ih

theorem scanLineHits_length (v : List Char) (lines : List (List Char)) :
    ∀ st, (scanLineHits v lines st).length = lines.length := by
  induction lines with
  | nil => intro st; simp [scanLineHits]
  | cons line rest ih => intro st; simp [scanLineHits, ih]

/-- Number of `some` entries: the total `occurrences` counted by a scan. -/
def countHits (hs : List (Option DeclHit)) : Nat :=
  hs.countP (fun h => h.isSome)

/-- Whether a hit would be rewritten in selector mode `s`
    (`selector === '*' || currentSelector === selector`). -/
def selectedHit (s : List Char) (h : Option DeclHit) : Bool :=
  match h with
  | some hit => decide (s = ['*'] ∨ hit.sel = s)
  | none => false

/-- Line transformation in selector mode `s`. -/
def rewriteSelected (v nv s : List Char) (line : List Char) (h : Option DeclHit) :
    List Char :=
  match h with
  | some hit => if s = ['*'] ∨ hit.sel = s then rewriteLine v nv hit.m else line
  | none => line

/-- Index and content of the first `some` entry. -/
def firstHit : List (Option DeclHit) → Option (Nat × DeclHit)
  | [] => none
  | some hit :: _ => some (0, hit)
  | none :: rest => (firstHit rest).map (fun p => (p.1 + 1, p.2))

/-- Characterization of `updateLinesAux` in selector mode: every line is
    transformed pointwise by `rewriteSelected` against the pure scan,
    `occurrences` counts every hit whatever its selector, and `changed`
    records whether some hit was selected. -/
theorem updateLinesAux_some (v nv s : List Char) (lines : List (List Char)) :
    ∀ st chg occ,
    updateLinesAux v nv (some s) lines st chg occ =
      (List.zipWith (rewriteSelected v nv s) lines (scanLineHits v lines st),
       occ + countHits (scanLineHits v lines st),
       chg || (scanLineHits v lines st).any (selectedHit s)) := by
  induction lines with
  | nil => intro st chg occ; simp [updateLinesAux, scanLineHits, countHits]
  | cons line rest ih =>
    intro st chg occ
    rw [updateLinesAux, scanLineHits]
    cases hm : matchDeclLine v line with
    | none =>
      simp only [hm, ih, countHits, List.countP_cons, List.any_cons, selectedHit,
        rewriteSelected, List.zipWith_cons_cons]
      simp
    | some m =>
      by_cases hd : (lineStateUpdate st line).depth > 0
      · by_cases hsel : s = ['*'] ∨ (lineStateUpdate st line).currentSelector = s
        · simp only [hm, hd, if_pos, hsel, if_true, ih, countHits, List.countP_cons,
            List.any_cons, selectedHit, rewriteSelected, List.zipWith_cons_cons]
          simp [hsel, hd]
          omega
        · simp only [hm, hd, if_pos, hsel, if_false, ih, countHits, List.countP_cons,
            List.any_cons, selectedHit, rewriteSelected, List.zipWith_cons_cons]
          simp [hsel, hd]
          omega
      · simp only [hm, hd, ih, countHits, List.countP_cons, List.any_cons,
          selectedHit, rewriteSelected, List.zipWith_cons_cons]
        simp [hd]

/-- Characterization of `updateLinesAux` with no selector: only the first
    hit is rewritten, scanning stops there, `occurrences` is 1 when a hit
    exists and 0 otherwise. -/
theorem updateLinesAux_none (v nv : List Char) (lines : List (List Char)) :
    ∀ st occ,
    updateLinesAux v nv none lines st false occ =
      (match firstHit (scanLineHits v lines st) with
       | none => (lines, occ, false)
       | some (i, hit) => (lines.set i (rewriteLine v nv hit.m), occ + 1, true)) := by
  induction lines with
  | nil => intro st occ; simp [updateLinesAux, scanLineHits, firstHit]
  | cons line rest ih =>
    intro st occ
    rw [updateLinesAux, scanLineHits]
    cases hm : matchDeclLine v line with
    | none =>
      simp only [hm, ih, firstHit]
      cases hfh : firstHit (scanLineHits v rest (lineStateUpdate st line)) with
      | none => simp [firstHit, hfh]
      | some p => cases p with
        | mk i hit => simp [firstHit, hfh, List.set]
    | some m =>
      by_cases hd : (lineStateUpdate st line).depth > 0
      · simp only [hm, hd, if_true, if_pos, Bool.false_eq_true, if_false, firstHit]
        simp [hd, List.set]
      · simp only [hm, hd, ih, firstHit]
        cases hfh : firstHit (scanLineHits v rest (lineStateUpdate st line)) with
        | none => simp [hd, firstHit, hfh]
        | some p => cases p with
          | mk i hit => simp [hd, firstHit, hfh, List.set]

/-- A scan with no selected hit rewrites nothing. -/
theorem zipWith_rewriteSelected_id (v nv s : List Char) :
    ∀ (lines : List (List Char)) (hs : List (Option DeclHit)),
    lines.length = hs.length → (∀ h ∈ hs, selectedHit s h = false) →
    List.zipWith (rewriteSelected v nv s) lines hs = lines := by
  intro lines
  induction lines with
  | nil => intro hs _ _; simp
  | cons line rest ih =>
    intro hs hlen hsel
    cases hs with
    | nil => simp at hlen
    | cons h hs2 =>
      have h1 : selectedHit s h = false := hsel h (by simp)
      have h2 : ∀ x ∈ hs2, selectedHit s x = false := fun x hx => hsel x (by simp [hx])
      simp only [List.zipWith_cons_cons]
      rw [ih hs2 (by simpa using hlen) h2]
      cases h with
      | none => simp [rewriteSelected]
      | some hit =>
        simp [selectedHit] at h1
        simp [rewriteSelected, h1]

theorem firstHit_none_iff (hs : List (Option DeclHit)) :
    firstHit hs = none ↔ ∀ h ∈ hs, h = none := by
  induction hs with
  | nil => simp [firstHit]
  | cons h rest ih =>
    cases h with
    | some hit => simp [firstHit]
    | none =>
      constructor
      · intro he x hx
        rw [firstHit] at he
        have hr : firstHit rest = none := by
          cases hfh : firstHit rest with
          | none => rfl
          | some p => rw [hfh] at he; simp at he
        rcases List.mem_cons.mp hx with hx | hx
        · exact hx
        · exact ih.mp hr x hx
      · intro hall
        rw [firstHit]
        have hr : firstHit rest = none := ih.mpr (fun x hx => hall x (by simp [hx]))
        rw [hr]; rfl

theorem firstHit_get {hs : List (Option DeclHit)} {i : Nat} {hit : DeclHit} :
    firstHit hs = some (i, hit) → hs.get? i = some (some hit) := by
  induction hs generalizing i with
  | nil => simp [firstHit]
  | cons h rest ih =>
    cases h with
    | some hit2 =>
      intro he
      rw [firstHit, Option.some_inj, Prod.mk.injEq] at he
      obtain ⟨h1, h2⟩ := he
      subst h1; subst h2; rfl
    | none =>
      intro he
      rw [firstHit] at he
      cases hfh : firstHit rest with
      | none => rw [hfh] at he; simp at he
      | some p =>
        obtain ⟨j, hit3⟩ := p
        rw [hfh] at he
        simp only [Option.map, Option.some_inj, Prod.mk.injEq] at he
        obtain ⟨h1, h2⟩ := he
        subst h2
        cases i with
        | zero => omega
        | succ i2 =>
          have hij : j = i2 := by omega
          subst hij
          simpa [List.get?] using ih hfh

theorem scanLineHits_get (v : List Char) :
    ∀ (lines : List (List Char)) (st : ScanState) (i : Nat) (hit : DeclHit),
    (scanLineHits v lines st).get? i = some (some hit) →
    ∃ line, lines.get? i = some line ∧ matchDeclLine v line = some hit.m := by
  intro lines
  induction lines with
  | nil => intro st i hit h; simp [scanLineHits] at h
  | cons line rest ih =>
    intro st i hit h
    rw [scanLineHits] at h
    cases i with
    | zero =>
      simp only [List.get?, Option.some_inj] at h
      refine ⟨line, rfl, ?_⟩
      cases hm : matchDeclLine v line with
      | none => rw [hm] at h; simp at h
      | some m =>
        simp only [hm] at h
        by_cases hd : (lineStateUpdate st line).depth > 0
        · rw [if_pos hd, Option.some_inj] at h
          simp [← h]
        · rw [if_neg hd] at h
          simp at h
    | succ j =>
      simp only [List.get?] at h ⊢
      exact ih (lineStateUpdate st line) j hit h

theorem set_get_self {α : Type} :
    ∀ (l : List α) (i : Nat) (a : α), l.get? i = some a → l.set i a = l := by
  intro l
  induction l with
  | nil => intro i a h; simp [List.get?] at h
  | cons x rest ih =>
    intro i a h
    cases i with
    | zero => simp [List.get?] at h; simp [h]
    | succ j =>
      simp only [List.get?] at h
      simp [List.set, ih j a h]

/-! ## Decomposition of a matched declaration line -/

theorem drop_length_takeWhile (q : Char → Bool) (s : List Char) :
    s.drop (s.takeWhile q).length = s.dropWhile q := by
  induction s with
  | nil => simp
  | cons c rest ih =>
    by_cases h : q c
    · simp [List.takeWhile, List.dropWhile, h, ih]
    · simp [List.takeWhile, List.dropWhile, h]

theorem dropWhile_head_not (q : Char → Bool) :
    ∀ (s : List Char) (c : Char) (t : List Char),
    s.dropWhile q = c :: t → q c = false := by
  intro s
  induction s with
  | nil => intro c t h; simp at h
  | cons x rest ih =>
    intro c t h
    by_cases hx : q x
    · rw [List.dropWhile_cons_of_pos hx] at h
      exact ih c t h
    · rw [List.dropWhile_cons_of_neg hx] at h
      cases h
      simpa using hx

/-- Where the first `;` sits: the element at the `takeWhile`-boundary. -/
theorem drop_firstSemi (s : List Char)
    (hp : (s.takeWhile notSemi).length < s.length) :
    s.drop (s.takeWhile notSemi).length =
      ';' :: s.drop ((s.takeWhile notSemi).length + 1) := by
  rw [drop_length_takeWhile]
  cases hd : s.dropWhile notSemi with
  | nil =>
    exfalso
    have := drop_length_takeWhile notSemi s
    rw [hd] at this
    have hlen := congrArg List.length this
    simp at hlen
    omega
  | cons c t =>
    have hc := dropWhile_head_not notSemi s c t hd
    simp [notSemi] at hc
    subst hc
    congr 1
    have h1 : s.drop ((s.takeWhile notSemi).length + 1) =
        (s.drop (s.takeWhile notSemi).length).drop 1 := by
      rw [List.drop_drop]
      try rw [Nat.add_comm]
    rw [h1, drop_length_takeWhile, hd]
    simp

theorem matchValueAfterColon_decomp {s w2 val after : List Char}
    (h : matchValueAfterColon s = some (w2, val, after)) :
    s = w2 ++ val ++ ';' :: after ∧ val ≠ [] := by
  rw [matchValueAfterColon] at h
  simp only at h
  by_cases hp : (s.takeWhile notSemi).length < s.length
  · rw [if_pos hp] at h
    by_cases hz : (s.takeWhile notSemi).length = 0
    · rw [if_pos hz] at h; simp at h
    · rw [if_neg hz] at h
      rw [Option.some_inj, Prod.mk.injEq, Prod.mk.injEq] at h
      obtain ⟨h1, h2, h3⟩ := h
      set p := (s.takeWhile notSemi).length with hpdef
      set k := min (s.takeWhile isSpaceJS).length (p - 1) with hkdef
      have hkp : k ≤ p - 1 := Nat.min_le_right _ _
      have hkp2 : k < p := by omega
      constructor
      · rw [← h1, ← h2, ← h3]
        have e2 : (s.drop k).take (p - k) ++ ';' :: s.drop (p + 1) = s.drop k := by
          have e3 : s.drop k = (s.drop k).take (p - k) ++ (s.drop k).drop (p - k) :=
            (List.take_append_drop _ _).symm
          have e4 : (s.drop k).drop (p - k) = s.drop p := by
            rw [List.drop_drop]; congr 1; omega
          have e5 : s.drop p = ';' :: s.drop (p + 1) := drop_firstSemi s hp
          rw [← e5, ← e4, ← e3]
        calc s = s.take k ++ s.drop k := (List.take_append_drop _ _).symm
          _ = s.take k ++ ((s.drop k).take (p - k) ++ ';' :: s.drop (p + 1)) := by
                rw [e2]
          _ = s.take k ++ (s.drop k).take (p - k) ++ ';' :: s.drop (p + 1) := by
                simp
      · rw [← h2]
        have hlen : ((s.drop k).take (p - k)).length = p - k := by
          rw [List.length_take, List.length_drop]
          omega
        intro hnil
        rw [hnil] at hlen
        simp at hlen
        omega
  · rw [if_neg hp] at h; simp at h

theorem take_length_takeWhile (q : Char → Bool) (l : List Char) :
    l.take (l.takeWhile q).length = l.takeWhile q := by
  induction l with
  | nil => simp
  | cons c rest ih =>
    by_cases hq : q c
    · simp [List.takeWhile, hq, ih]
    · simp [List.takeWhile, hq]

theorem matchNameAt_decomp {v s sep val after : List Char}
    (h : matchNameAt v s = some (sep, val, after)) :
    s = v ++ sep ++ val ++ ';' :: after := by
  by_cases hv : v.isPrefixOf s = true
  · rw [matchNameAt, if_pos hv] at h
    simp only at h
    split at h
    · rename_i rest4 heq
      cases hm : matchValueAfterColon rest4 with
      | none => rw [hm] at h; simp at h
      | some t =>
        obtain ⟨w2, v4, a4⟩ := t
        rw [hm] at h
        simp at h
        obtain ⟨h1, h2, h3⟩ := h
        have hd := matchValueAfterColon_decomp hm
        have hpre : v ++ s.drop v.length = s := by
          obtain ⟨t, ht⟩ := List.isPrefixOf_iff_prefix.mp hv
          rw [← ht, List.drop_left]
        have hws : (s.drop v.length).takeWhile isSpaceJS ++ ':' :: rest4 =
            s.drop v.length := by
          conv_rhs => rw [← List.take_append_drop
            ((s.drop v.length).takeWhile isSpaceJS).length (s.drop v.length)]
          rw [heq, take_length_takeWhile]
        have hfinal : s = v ++ ((s.drop v.length).takeWhile isSpaceJS ++
            ':' :: (w2 ++ v4 ++ ';' :: a4)) := by
          rw [← hd.1, hws, hpre]
        rw [← h1, ← h2, ← h3]
        simpa [List.append_assoc] using hfinal
    · simp at h
  · rw [matchNameAt, if_neg hv] at h
    simp at h

theorem matchDeclLineAux_decomp {v line : List Char} :
    ∀ (k : Nat) (m : LineMatch), matchDeclLineAux v line k = some m →
    line = m.indent ++ v ++ m.sep ++ m.value ++ ';' :: m.after := by
  intro k
  induction k with
  | zero =>
    intro m h
    rw [matchDeclLineAux] at h
    cases hm : matchNameAt v line with
    | none => rw [hm] at h; simp at h
    | some t =>
      obtain ⟨sep, val, after⟩ := t
      rw [hm] at h
      simp at h
      rw [← h]
      simpa using matchNameAt_decomp hm
  | succ k ih =>
    intro m h
    rw [matchDeclLineAux] at h
    cases hm : matchNameAt v (line.drop (k + 1)) with
    | none =>
      rw [hm] at h
      exact ih m h
    | some t =>
      obtain ⟨sep, val, after⟩ := t
      rw [hm] at h
      simp at h
      rw [← h]
      simp only []
      have hdecomp := matchNameAt_decomp hm
      conv_lhs => rw [← List.take_append_drop (k + 1) line, hdecomp]
      simp

/-- A matched line decomposes into its captured groups; the name group is
    the variable name itself. -/
theorem matchDeclLine_decomp {v line : List Char} {m : LineMatch}
    (h : matchDeclLine v line = some m) :
    line = m.indent ++ v ++ m.sep ++ m.value ++ ';' :: m.after :=
  matchDeclLineAux_decomp _ m h

theorem zipWith_ext {α β γ : Type} (f g : α → β → γ)
    (hfg : ∀ a b, f a b = g a b) :
    ∀ (l : List α) (l2 : List β), List.zipWith f l l2 = List.zipWith g l l2 := by
  intro l
  induction l with
  | nil => intro l2; simp
  | cons a as ih =>
    intro l2
    cases l2 with
    | nil => simp
    | cons b bs => simp [hfg, ih]

theorem any_ext {α : Type} (f g : α → Bool) (hfg : ∀ a, f a = g a) :
    ∀ (l : List α), l.any f = l.any g := by
  intro l
  induction l with
  | nil => simp
  | cons a as ih => simp [hfg, ih]

/-- Top-level characterization of `updateVariable` without a selector. -/
theorem updateVariable_none_eq (text varName newValue : String) :
    updateVariable text varName newValue none =
      (match firstHit (scanLineHits varName.data (splitLines text.data) initState) with
       | none => ⟨text, false, 0⟩
       | some (i, hit) =>
         ⟨(joinLines ((splitLines text.data).set i
             (rewriteLine varName.data newValue.data hit.m))).asString, true, 1⟩) := by
  simp only [updateVariable, Option.map_none']
  rw [updateLinesAux_none]
  cases hfh : firstHit (scanLineHits varName.data (splitLines text.data) initState) with
  | none => simp [joinLines_splitLines, asString_data]
  | some p => obtain ⟨i, hit⟩ := p; simp

/-- Top-level characterization of `updateVariable` with a selector. -/
theorem updateVariable_some_eq (text varName newValue s : String) :
    updateVariable text varName newValue (some s) =
      ⟨(joinLines (List.zipWith (rewriteSelected varName.data newValue.data s.data)
          (splitLines text.data)
          (scanLineHits varName.data (splitLines text.data) initState))).asString,
       (scanLineHits varName.data (splitLines text.data) initState).any
         (selectedHit s.data),
       countHits (scanLineHits varName.data (splitLines text.data) initState)⟩ := by
  simp only [updateVariable, Option.map_some']
  rw [updateLinesAux_some]
  simp

theorem capturedName_shape :
    ∀ (l n : List Char), capturedName l = some n →
    ∃ body, n = '-' :: '-' :: body := by
  intro l
  induction l with
  | nil => intro n h; simp [capturedName] at h
  | cons c rest ih =>
    intro n h
    rw [capturedName] at h
    split at h
    · simp only at h
      split at h
      · exact ih n h
      · exact ⟨_, (Option.some_inj.mp h).symm⟩
    · exact ih n h

/-- Whether a hit would be rewritten given the optional selector argument. -/
def hitIsSelected : Option (List Char) → Option DeclHit → Bool
  | none, h => h.isSome
  | some s, h => selectedHit s h

/-! ## `extractVariables` (part_011:330-401) -/

/-- One extracted declaration `{name, value, line, selector}`. -/
structure ParsedDecl where
  name : String
  value : String
  line : Nat
  selector : String
deriving Repr, DecidableEq

/-- The declaration regex `/^\s*(--[\w-]+)\s*:\s*([^;]+);/` of
    `extractVariables`; returns (full name with the `--`, raw group 2).
    The leading `\s*` and the greedy `[\w-]+` are exact (the next required
    characters are outside their classes); the value tail is shared with
    the `updateVariable` pattern. -/
def matchVarDeclLine (line : List Char) : Option (List Char × List Char) :=
  let ws := line.takeWhile isSpaceJS
  match line.drop ws.length with
  | '-' :: '-' :: s2 =>
    let body := s2.takeWhile isWordDash
    if body.isEmpty then none
    else
      let s3 := s2.drop body.length
      let ws1 := s3.takeWhile isSpaceJS
      match s3.drop ws1.length with
      | ':' :: s4 => (matchValueAfterColon s4).map (fun t => ('-' :: '-' :: body, t.2.1))
      | _ => none
  | _ => none

/-- The character loop of `extractVariables` over one line: like the one in
    `updateVariable` except that `line.slice(0, j)` is appended to the
    buffer untrimmed, the selector is normalized with
    `.trim().replace(/\s+/g, ' ')`, and on `}` returning to depth 0 the
    buffer is cleared as well. -/
def extScanBracesAux (line : List Char) : List Char → Nat → ScanState → ScanState
  | [], _, st => st
  | c :: cs, j, st =>
    let st1 :=
      if c = '\x7b' then
        if st.depth = 0 then
          ⟨st.depth + 1, squashWS (trimJS (st.buffer ++ line.take j)), []⟩
        else ⟨st.depth + 1, st.currentSelector, st.buffer⟩
      else if c = '\x7d' then
        if st.depth - 1 = 0 then ⟨st.depth - 1, [], []⟩
        else ⟨st.depth - 1, st.currentSelector, st.buffer⟩
      else st
    extScanBracesAux line cs (j + 1) st1

/-- Per-line state update of `extractVariables`: the character loop, then
    accumulation of brace-free out-of-block lines into the selector buffer
    (`selectorBuffer += (selectorBuffer ? ' ' : '') + trimmed`). -/
def extLineState (st : ScanState) (line : List Char) : ScanState :=
  let st1 := extScanBracesAux line line 0 st
  if ¬ line.contains '\x7b' ∧ ¬ line.contains '\x7d' ∧ st1.depth = 0 then
    let t := trimJS line
    if t.isEmpty then st1
    else ⟨st1.depth, st1.currentSelector,
      st1.buffer ++ (if st1.buffer.isEmpty then [] else [' ']) ++ t⟩
  else st1

/-- `hay.includes(needle)`: contiguous substring test. -/
def includesSub (needle : List Char) : List Char → Bool
  | [] => needle.isEmpty
  | c :: rest => needle.isPrefixOf (c :: rest) || includesSub needle rest

/-- The best-effort line-number mapping of `extractVariables`: advance
    `originalLineIndex` while the original line does not contain the first
    20 characters of the trimmed comment-stripped line
    (`String.prototype.includes`, with the empty key contained
    everywhere). -/
def advanceIdx (origLines : List (List Char)) (idx : Nat) (key : List Char) : Nat :=
  idx + (origLines.drop idx).findIdx (fun l => includesSub key l)

/-- Main loop of `extractVariables` over the comment-stripped lines. -/
def extractVarsAux (origLines : List (List Char)) :
    List (List Char) → ScanState → Nat → List ParsedDecl
  | [], _, _ => []
  | line :: rest, st, origIdx =>
    let idx2 := advanceIdx origLines origIdx ((trimJS line).take 20)
    let st1 := extLineState st line
    let decls : List ParsedDecl :=
      match matchVarDeclLine line with
      | some t =>
        if st1.depth > 0 then
          [⟨t.1.asString, (trimJS t.2).asString, idx2 + 1,
            (if st1.currentSelector.isEmpty then [':', 'r', 'o', 'o', 't']
             else st1.currentSelector).asString⟩]
        else []
      | none => []
    decls ++ extractVarsAux origLines rest st1 idx2

/-- `extractVariables(cssContent)` (part_011:330-401): strip block
    comments, then scan line by line collecting every custom-property
    declaration inside a block together with its trimmed value, 1-based
    best-effort line number, and enclosing selector (`':root'` when the
    tracked selector is empty). -/
def extractVariables (cssContent : String) : List ParsedDecl :=
  extractVarsAux (splitLines cssContent.data)
    (splitLines (removeComments cssContent.data)) initState 0

/-! ## Trim idempotence and `extractVariables` facts -/

theorem dropWhile_dropWhile (p : Char → Bool) (l : List Char) :
    (l.dropWhile p).dropWhile p = l.dropWhile p := by
  cases hd : l.dropWhile p with
  | nil => simp
  | cons c t =>
    have := dropWhile_head_not p l c t hd
    rw [List.dropWhile_cons_of_neg (by simp [this])]

theorem trimJS_no_leading (l : List Char) :
    (trimJS l).dropWhile isSpaceJS = trimJS l := by
  rw [trimJS]
  cases hr : ((l.dropWhile isSpaceJS).reverse.dropWhile isSpaceJS).reverse with
  | nil => simp
  | cons a t =>
    have hL : l.dropWhile isSpaceJS =
        ((l.dropWhile isSpaceJS).reverse.dropWhile isSpaceJS).reverse ++
        ((l.dropWhile isSpaceJS).reverse.takeWhile isSpaceJS).reverse := by
      conv_lhs => rw [← List.reverse_reverse (l.dropWhile isSpaceJS),
        ← List.takeWhile_append_dropWhile isSpaceJS (l.dropWhile isSpaceJS).reverse]
      rw [List.reverse_append]
    rw [hr] at hL
    have hhead : l.dropWhile isSpaceJS = a ::
        (t ++ ((l.dropWhile isSpaceJS).reverse.takeWhile isSpaceJS).reverse) := by
      simpa using hL
    have ha := dropWhile_head_not isSpaceJS l a _ hhead
    rw [List.dropWhile_cons_of_neg (by simp [ha])]

theorem trimJS_idem (l : List Char) : trimJS (trimJS l) = trimJS l := by
  conv_lhs => rw [trimJS, trimJS_no_leading, trimJS]
  rw [List.reverse_reverse, dropWhile_dropWhile, ← trimJS]

theorem asString_ne_empty {l : List Char} (h : l ≠ []) : l.asString ≠ "" := by
  intro he
  exact h (by simpa using congrArg String.data he)

/-- Per-line test mirroring the condition under which `extractVariables`
    emits a declaration: the line (of the comment-stripped text) matches
    the declaration regex and the tracked brace depth after the line's
    character loop is positive. -/
def extDeclLines : List (List Char) → ScanState → List Bool
  | [], _ => []
  | line :: rest, st =>
    let st1 := extLineState st line
    ((matchVarDeclLine line).isSome && decide (st1.depth > 0)) ::
      extDeclLines rest st1

theorem extractVarsAux_length (origLines : List (List Char)) :
    ∀ (lines : List (List Char)) (st : ScanState) (idx : Nat),
    (extractVarsAux origLines lines st idx).length =
      (extDeclLines lines st).countP id := by
  intro lines
  induction lines with
  | nil => intro st idx; simp [extractVarsAux, extDeclLines]
  | cons line rest ih =>
    intro st idx
    rw [extractVarsAux, extDeclLines]
    rw [List.countP_cons]
    cases hm : matchVarDeclLine line with
    | none => simp [hm, ih]
    | some t =>
      by_cases hd : (extLineState st line).depth > 0
      · simp [hm, hd, ih]
      · simp [hm, hd, ih]

theorem extractVarsAux_mem (origLines : List (List Char)) :
    ∀ (lines : List (List Char)) (st : ScanState) (idx : Nat) (d : ParsedDecl),
    d ∈ extractVarsAux origLines lines st idx →
    1 ≤ d.line ∧ d.selector ≠ "" ∧ d.value.data = trimJS d.value.data := by
  intro lines
  induction lines with
  | nil => intro st idx d hd; simp [extractVarsAux] at hd
  | cons line rest ih =>
    intro st idx d hd
    rw [extractVarsAux] at hd
    rw [List.mem_append] at hd
    rcases hd with hd | hd
    · cases hm : matchVarDeclLine line with
      | none => simp only [hm] at hd; simp at hd
      | some t =>
        simp only [hm] at hd
        by_cases hdep : (extLineState st line).depth > 0
        · rw [if_pos hdep] at hd
          rw [List.mem_singleton] at hd
          subst hd
          refine ⟨by simp, ?_, ?_⟩
          · by_cases hsel : (extLineState st line).currentSelector.isEmpty
            · simp only [hsel, if_true, if_pos]
              exact asString_ne_empty (by simp)
            · simp only [hsel, if_false, Bool.false_eq_true, if_neg]
              exact asString_ne_empty (by simpa using hsel)
          · simp only [data_asString]
            exact (trimJS_idem t.2).symm
        · rw [if_neg hdep] at hd
          simp at hd
    · exact ih _ _ d hd

/-! ## The commit endpoint (part_011:122-194)

The filesystem visible to the dev-server plugin is modelled as an
association list from path to file content; `readFile` is a lookup and
`writeFile` an in-place functional update.  Paths are kept as given (the
plugin's `relative(root, file)` is the identity in this model). -/

/-- One `{variable, value}` entry of a commit request body; either field
    may be absent (`none`) and the endpoint also treats the empty string
    as missing (the JS falsiness test `!variable || !value`).  The source
    field `variable` is a Lean keyword, hence `varName`. -/
structure ChangeReq where
  varName : Option String
  value : Option String
deriving Repr, DecidableEq

/-- JS falsiness of an optional string field. -/
def falsyStr : Option String → Bool
  | none => true
  | some s => s.isEmpty

/-- `findVariableFile(varName, cssFiles)` (part_011:485-505): first file
    whose `extractVariables` output contains a declaration of the
    variable, with that declaration's line and selector. -/
def findVariableFile (v : String) :
    List (String × String) → Option (String × Nat × String)
  | [] => none
  | (path, content) :: rest =>
    match (extractVariables content).find? (fun d => d.name == v) with
    | some d => some (path, d.line, d.selector)
    | none => findVariableFile v rest

/-- One committed entry `{variable, file, line}`. -/
structure CommitItem where
  varName : String
  file : String
  line : Nat
deriving Repr, DecidableEq

/-- One error entry `{variable, error}`. -/
structure CommitErr where
  varName : Option String
  error : String
deriving Repr, DecidableEq

/-- `readFile` against the modelled filesystem. -/
def lookupFile (files : List (String × String)) (path : String) : String :=
  ((files.find? (fun p => p.1 == path)).map Prod.snd).getD ""

/-- `writeFile` against the modelled filesystem. -/
def writeFileFS (files : List (String × String)) (path content : String) :
    List (String × String) :=
  files.map (fun p => if p.1 == path then (p.1, content) else p)

/-- The `for (const change of changes)` loop of the commit endpoint: each
    change is processed independently against the current filesystem; a
    failure pushes an error and continues; a successful update writes the
    file back before the next change is examined.  Returns the final
    filesystem, `committed` and `errors` in request order. -/
def processChanges (selector : Option String) :
    List ChangeReq → List (String × String) →
    List (String × String) × List CommitItem × List CommitErr
  | [], files => (files, [], [])
  | ch :: rest, files =>
    if falsyStr ch.varName || falsyStr ch.value then
      let r := processChanges selector rest files
      (r.1, r.2.1, ⟨ch.varName, "Missing variable or value"⟩ :: r.2.2)
    else
      let v := ch.varName.getD ""
      let val := ch.value.getD ""
      match findVariableFile v files with
      | none =>
        let r := processChanges selector rest files
        (r.1, r.2.1, ⟨ch.varName, "Variable not found in any CSS file"⟩ :: r.2.2)
      | some (path, line, _) =>
        let content := lookupFile files path
        let res := updateVariable content v val selector
        if res.changed then
          let files2 := writeFileFS files path res.content
          let r := processChanges selector rest files2
          (r.1, ⟨v, path, line⟩ :: r.2.1, r.2.2)
        else
          let r := processChanges selector rest files
          (r.1, r.2.1, ⟨ch.varName, "Variable value unchanged"⟩ :: r.2.2)

/-- The commit response `{success, committed, errors}` with
    `success = (errors.length === 0)`. -/
structure CommitResponse where
  success : Bool
  committed : List CommitItem
  errors : List CommitErr
deriving Repr, DecidableEq

/-- The `POST /__ektachrome/commit` handler body, after body parsing:
    process every change, then report. -/
def commitChanges (changes : List ChangeReq) (files : List (String × String))
    (selector : Option String) : CommitResponse × List (String × String) :=
  let r := processChanges selector changes files
  (⟨r.2.2.isEmpty, r.2.1, r.2.2⟩, r.1)

theorem processChanges_length (selector : Option String) :
    ∀ (changes : List ChangeReq) (files : List (String × String)),
    (processChanges selector changes files).2.1.length +
      (processChanges selector changes files).2.2.length = changes.length := by
  intro changes
  induction changes with
  | nil => intro files; simp [processChanges]
  | cons ch rest ih =>
    intro files
    rw [processChanges]
    by_cases hfal : (falsyStr ch.varName || falsyStr ch.value) = true
    · rw [if_pos hfal]
      simp only [List.length_cons]
      have := ih files
      omega
    · rw [if_neg hfal]
      simp only []
      cases hff : findVariableFile (ch.varName.getD "") files with
      | none =>
        simp only [hff, List.length_cons]
        have := ih files
        omega
      | some t =>
        obtain ⟨path, line, sel2⟩ := t
        simp only [hff]
        by_cases hch : (updateVariable (lookupFile files path) (ch.varName.getD "")
            (ch.value.getD "") selector).changed = true
        · rw [if_pos hch]
          simp only [List.length_cons]
          have := ih (writeFileFS files path (updateVariable (lookupFile files path)
            (ch.varName.getD "") (ch.value.getD "") selector).content)
          omega
        · rw [if_neg hch]
          simp only [List.length_cons]
          have := ih files
          omega

/-! ## `_mergeVariables` (src/src/controls/toolbar-popup.js:759-770) -/

/-- A `VariableReference` `{variable, property, currentValue, rawValue}`;
    the source field `variable` is a Lean keyword, hence `varName`. -/
structure VarRef where
  varName : String
  property : String
  currentValue : String
  rawValue : String
deriving Repr, DecidableEq

/-- `_mergeVariables(directVars, mappedVars)`: all direct entries, then
    every mapped entry whose variable name is not in the (fixed) set of
    direct names. -/
def mergeVariables (directVars mappedVars : List VarRef) : List VarRef :=
  let existingVars := directVars.map (fun v => v.varName)
  directVars ++ mappedVars.filter (fun mv => !(existingVars.contains mv.varName))

/-! ## `show` / `hide` request-counter discipline
    (src/src/controls/toolbar-popup.js:62-130)

The popup's shared UI state is reduced to the fields the counter protects:
`_requestId`, visibility (`style.display`), and the committed resolution
(`_grouped`, tagged here by the selected element).  A `show()` call whose
synchronous strategies find variables commits in one step (`showSync`: no
suspension can interleave).  A `show()` that falls back to remote
discovery splits into `showStart` (capture `++this._requestId`, then
await) and `showResume` (the code after the await: both counter checks
compare the captured value against the current one and discard on
mismatch, otherwise the result is committed and the popup displayed).
`hide()` returns immediately when the popup is already hidden; otherwise
it hides, clears the state and increments the counter. -/

/-- Shared popup state: request counter, visibility, committed result
    (tag of the element whose resolution is displayed). -/
structure PopupState where
  requestId : Nat
  visible : Bool
  grouped : Option Nat
deriving Repr, DecidableEq

/-- Interleaving events of the popup methods. -/
inductive PopupEvent where
  | showSync (tag : Nat)
  | showStart (tag : Nat)
  | showResume (captured : Nat) (tag : Nat)
  | hide
deriving Repr, DecidableEq

/-- One step of the popup state machine. -/
def stepE (st : PopupState) : PopupEvent → PopupState
  | .showSync tag => ⟨st.requestId + 1, true, some tag⟩
  | .showStart _ => ⟨st.requestId + 1, st.visible, st.grouped⟩
  | .showResume captured tag =>
    if captured = st.requestId then ⟨st.requestId, true, some tag⟩ else st
  | .hide =>
    if st.visible then ⟨st.requestId + 1, false, none⟩ else st

/-- Run a sequence of events. -/
def runTrace (st : PopupState) (es : List PopupEvent) : PopupState :=
  es.foldl stepE st

/-- Events that start a new element selection. -/
def isSelect : PopupEvent → Prop :=
  fun e => (∃ t, e = .showSync t) ∨ (∃ t, e = .showStart t)

theorem stepE_requestId_mono (st : PopupState) (e : PopupEvent) :
    st.requestId ≤ (stepE st e).requestId := by
  cases e with
  | showSync t => simp [stepE]
  | showStart t => simp [stepE]
  | showResume c t =>
    rw [stepE]
    split <;> simp
  | hide =>
    rw [stepE]
    split <;> simp

theorem runTrace_requestId_mono :
    ∀ (es : List PopupEvent) (st : PopupState),
    st.requestId ≤ (runTrace st es).requestId := by
  intro es
  induction es with
  | nil => intro st; simp [runTrace]
  | cons e rest ih =>
    intro st
    calc st.requestId ≤ (stepE st e).requestId := stepE_requestId_mono st e
      _ ≤ (runTrace (stepE st e) rest).requestId := ih (stepE st e)
      _ = (runTrace st (e :: rest)).requestId := rfl

theorem runTrace_select_strict :
    ∀ (es : List PopupEvent) (st : PopupState) (e : PopupEvent),
    e ∈ es → isSelect e →
    st.requestId < (runTrace st es).requestId := by
  intro es
  induction es with
  | nil => intro st e he _; simp at he
  | cons e2 rest ih =>
    intro st e he hsel
    rcases List.mem_cons.mp he with he | he
    · subst he
      have hstep : st.requestId + 1 ≤ (stepE st e).requestId := by
        rcases hsel with ⟨t, ht⟩ | ⟨t, ht⟩ <;> subst ht <;> simp [stepE]
      calc st.requestId < st.requestId + 1 := Nat.lt_succ_self _
        _ ≤ (stepE st e).requestId := hstep
        _ ≤ (runTrace (stepE st e) rest).requestId :=
            runTrace_requestId_mono rest (stepE st e)
    · calc st.requestId ≤ (stepE st e2).requestId := stepE_requestId_mono st e2
        _ < (runTrace (stepE st e2) rest).requestId := ih (stepE st e2) e he hsel

end Ektachrome

namespace Ektachrome

/-! ## Claim theorems -/

/-- C1 (counterexample): `extractVarReferences` does not deduplicate: on
    `"0 var(--space-2) var(--space-2) var(--space-4)"` it returns
    `--space-2` twice, not the claimed `["--space-2", "--space-4"]`. -/
theorem C1_extractVarReferences_counterexample :
    extractVarReferences "0 var(--space-2) var(--space-2) var(--space-4)" ≠
      ["--space-2", "--space-4"] ∧
    extractVarReferences "0 var(--space-2) var(--space-2) var(--space-4)" =
      ["--space-2", "--space-2", "--space-4"] := by
  constructor <;> decide

/-- C1 (amended): `extractVarReferences` returns one entry per `var()`
    occurrence in order of occurrence, duplicates retained; every returned
    name carries the `--` prefix. -/
theorem C1_extractVarReferences_amended :
    extractVarReferences "0 var(--space-2) var(--space-2) var(--space-4)" =
      ["--space-2", "--space-2", "--space-4"] ∧
    ∀ (value name : String), name ∈ extractVarReferences value →
      name.data.take 2 = ['-', '-'] := by
  constructor
  · decide
  · intro value name hmem
    rw [extractVarReferences, List.mem_map] at hmem
    obtain ⟨n, hn, hname⟩ := hmem
    rw [List.mem_filterMap] at hn
    obtain ⟨l, _, hcap⟩ := hn
    obtain ⟨body, hbody⟩ := capturedName_shape l n hcap
    rw [← hname, data_asString, hbody]
    rfl

theorem C1_extractVarReferences_amended_witness :
    ("--space-2" : String).data.take 2 = ['-', '-'] :=
  C1_extractVarReferences_amended.2 "var(--space-2)" "--space-2" (by decide)

/-- C2: with no selector argument, `updateVariable` rewrites only the
    first in-block declaration of the variable (every other line, in
    particular every later declaration of the same variable, is copied
    unchanged), stops scanning there, and returns `occurrences = 1` when
    such a declaration exists and `occurrences = 0` when none does. -/
theorem C2_updateVariable_first_only (text varName newValue : String) :
    (firstHit (scanLineHits varName.data (splitLines text.data) initState) = none →
      updateVariable text varName newValue none = ⟨text, false, 0⟩) ∧
    (∀ (i : Nat) (hit : DeclHit),
      firstHit (scanLineHits varName.data (splitLines text.data) initState) =
        some (i, hit) →
      updateVariable text varName newValue none =
        ⟨(joinLines ((splitLines text.data).set i
            (rewriteLine varName.data newValue.data hit.m))).asString, true, 1⟩) := by
  constructor
  · intro h
    rw [updateVariable_none_eq, h]
  · intro i hit h
    rw [updateVariable_none_eq, h]

theorem C2_updateVariable_first_only_witness :
    updateVariable ":root \x7b\n  --x: 1;\n\x7d\n.dark \x7b\n  --x: 2;\n\x7d"
        "--x" "9" none =
      ⟨":root \x7b\n  --x: 9;\n\x7d\n.dark \x7b\n  --x: 2;\n\x7d", true, 1⟩ := by
  have h := (C2_updateVariable_first_only
      ":root \x7b\n  --x: 1;\n\x7d\n.dark \x7b\n  --x: 2;\n\x7d" "--x" "9").2 1
      ⟨⟨[' ', ' '], [':', ' '], ['1'], []⟩, [':', 'r', 'o', 'o', 't']⟩ (by decide)
  rw [h]
  decide

/-- C4: `updateVariable` is total; for a variable with no in-block
    declaration it returns `occurrences = 0`, `changed = false` and
    byte-identical content in every selector mode; whenever `changed` is
    `false` the content is byte-identical to the input; and `changed` is
    `true` iff at least one replacement occurred. -/
theorem C4_updateVariable_error_handling (text varName newValue : String)
    (selector : Option String) :
    ((∀ h ∈ scanLineHits varName.data (splitLines text.data) initState, h = none) →
      updateVariable text varName newValue selector = ⟨text, false, 0⟩) ∧
    ((updateVariable text varName newValue selector).changed = false →
      (updateVariable text varName newValue selector).content = text) ∧
    ((updateVariable text varName newValue selector).changed = true ↔
      ∃ h ∈ scanLineHits varName.data (splitLines text.data) initState,
        hitIsSelected (selector.map String.data) h = true) := by
  cases selector with
  | none =>
    cases hfh : firstHit (scanLineHits varName.data (splitLines text.data) initState) with
    | none =>
      have hall := (firstHit_none_iff _).mp hfh
      refine ⟨fun _ => by rw [updateVariable_none_eq, hfh], ?_, ?_⟩
      · intro _
        rw [updateVariable_none_eq, hfh]
      · rw [updateVariable_none_eq, hfh]
        simp only [Option.map_none', hitIsSelected]
        constructor
        · intro h; simp at h
        · intro ⟨h, hmem, hsel⟩
          rw [hall h hmem] at hsel
          simp at hsel
    | some p =>
      obtain ⟨i, hit⟩ := p
      have hget := firstHit_get hfh
      have hmem : (some hit) ∈ scanLineHits varName.data (splitLines text.data) initState :=
        List.get?_mem hget
      refine ⟨?_, ?_, ?_⟩
      · intro hall
        exact absurd (hall (some hit) hmem) (by simp)
      · rw [updateVariable_none_eq, hfh]
        intro hch
        simp at hch
      · rw [updateVariable_none_eq, hfh]
        simp only [Option.map_none', hitIsSelected]
        constructor
        · intro _
          exact ⟨some hit, hmem, rfl⟩
        · intro _
          trivial
  | some s =>
    have hlen : (splitLines text.data).length =
        (scanLineHits varName.data (splitLines text.data) initState).length :=
      (scanLineHits_length _ _ _).symm
    refine ⟨?_, ?_, ?_⟩
    · intro hall
      rw [updateVariable_some_eq]
      have hzip := zipWith_rewriteSelected_id varName.data newValue.data s.data
        (splitLines text.data) (scanLineHits varName.data (splitLines text.data) initState)
        hlen (fun h hm => by rw [hall h hm]; rfl)
      rw [hzip, joinLines_splitLines, asString_data]
      have hany : (scanLineHits varName.data (splitLines text.data) initState).any
          (selectedHit s.data) = false := by
        rw [List.any_eq_false]
        intro h hm
        rw [hall h hm]
        simp [selectedHit]
      have hcnt : countHits (scanLineHits varName.data (splitLines text.data) initState) = 0 := by
        rw [countHits, List.countP_eq_zero]
        intro h hm
        rw [hall h hm]
        simp
      rw [hany, hcnt]
    · rw [updateVariable_some_eq]
      intro hch
      simp only at hch ⊢
      have hall : ∀ h ∈ scanLineHits varName.data (splitLines text.data) initState,
          selectedHit s.data h = false :=
        fun h hm => by simpa using List.any_eq_false.mp hch h hm
      rw [zipWith_rewriteSelected_id varName.data newValue.data s.data _ _ hlen hall,
        joinLines_splitLines, asString_data]
    · rw [updateVariable_some_eq]
      simp only [Option.map_some', hitIsSelected]
      exact List.any_eq_true

theorem C4_updateVariable_error_handling_witness :
    updateVariable "body \x7b color: red; \x7d" "--x" "1" none =
      ⟨"body \x7b color: red; \x7d", false, 0⟩ :=
  (C4_updateVariable_error_handling "body \x7b color: red; \x7d" "--x" "1" none).1
    (by decide)

/-- C5 (counterexample): rewriting a declaration with its existing value is
    not byte-identical in general: trailing content after the semicolon
    (here a comment) is deleted even though the value is unchanged. -/
theorem C5_roundtrip_counterexample :
    (updateVariable ":root \x7b\n  --x: 1; /* note */\n\x7d" "--x" "1" none).changed
      = true ∧
    (updateVariable ":root \x7b\n  --x: 1; /* note */\n\x7d" "--x" "1" none).content
      ≠ ":root \x7b\n  --x: 1; /* note */\n\x7d" := by
  constructor <;> decide

/-- C5 (amended): when the first in-block declaration line carries nothing
    after its terminating semicolon, updating it with its existing value
    returns `changed = true`, `occurrences = 1` and byte-identical
    content. -/
theorem C5_roundtrip_amended (text varName : String) (i : Nat) (hit : DeclHit)
    (hfh : firstHit (scanLineHits varName.data (splitLines text.data) initState) =
      some (i, hit))
    (hafter : hit.m.after = []) :
    updateVariable text varName hit.m.value.asString none = ⟨text, true, 1⟩ := by
  have h2 : updateVariable text varName hit.m.value.asString none =
      ⟨(joinLines ((splitLines text.data).set i
          (rewriteLine varName.data hit.m.value.asString.data hit.m))).asString,
       true, 1⟩ := by
    rw [updateVariable_none_eq, hfh]
  obtain ⟨line, hline, hmatch⟩ := scanLineHits_get varName.data
    (splitLines text.data) initState i hit (firstHit_get hfh)
  have hdec := matchDeclLine_decomp hmatch
  have hrw : rewriteLine varName.data hit.m.value.asString.data hit.m = line := by
    rw [rewriteLine, data_asString, hdec, hafter]
  rw [h2, hrw, set_get_self _ i line hline, joinLines_splitLines, asString_data]

theorem C5_roundtrip_amended_witness :
    updateVariable ":root \x7b\n  --x: 1;\n\x7d" "--x" "1" none =
      ⟨":root \x7b\n  --x: 1;\n\x7d", true, 1⟩ :=
  C5_roundtrip_amended ":root \x7b\n  --x: 1;\n\x7d" "--x" 1
    ⟨⟨[' ', ' '], [':', ' '], ['1'], []⟩, [':', 'r', 'o', 'o', 't']⟩
    (by decide) (by decide)

/-- C6: `extractVariables` emits exactly one declaration per
    comment-stripped line matching the declaration regex with positive
    tracked brace depth; a custom-property-like line outside any block
    yields nothing; every declaration carries a trimmed value, a positive
    1-based line number, and a nonempty selector (`:root` when the tracked
    selector is empty) — as on the spec's worked example. -/
theorem C6_extractVariables_decls :
    (∀ (css : String),
      (extractVariables css).length =
        (extDeclLines (splitLines (removeComments css.data)) initState).countP id) ∧
    (∀ (css : String) (d : ParsedDecl), d ∈ extractVariables css →
      1 ≤ d.line ∧ d.selector ≠ "" ∧ d.value.data = trimJS d.value.data) ∧
    extractVariables
        ":root \x7b\n  --color-primary: oklch(0.6 0.2 250);\n\x7d\n.dark \x7b\n  --color-primary: oklch(0.4 0.15 250);\n\x7d" =
      [⟨"--color-primary", "oklch(0.6 0.2 250)", 2, ":root"⟩,
       ⟨"--color-primary", "oklch(0.4 0.15 250)", 5, ".dark"⟩] ∧
    extractVariables "--x: 1;" = [] := by
  refine ⟨?_, ?_, ?_, ?_⟩
  · intro css
    exact extractVarsAux_length _ _ _ _
  · intro css d hd
    exact extractVarsAux_mem _ _ _ _ d hd
  · decide
  · decide

theorem C6_extractVariables_decls_witness :
    1 ≤ (⟨"--x", "1", 2, ":root"⟩ : ParsedDecl).line ∧
    (⟨"--x", "1", 2, ":root"⟩ : ParsedDecl).selector ≠ "" ∧
    (⟨"--x", "1", 2, ":root"⟩ : ParsedDecl).value.data =
      trimJS (⟨"--x", "1", 2, ":root"⟩ : ParsedDecl).value.data :=
  C6_extractVariables_decls.2.1 ":root \x7b\n  --x: 1;\n\x7d"
    ⟨"--x", "1", 2, ":root"⟩ (by decide)

/-- C7: the commit endpoint processes every change of a batch exactly once
    (committed and errors partition the batch), `success` is true iff the
    error list is empty, and — as the worked 3-change batch shows — a
    failing change neither stops later changes nor rolls back earlier
    writes: both successful updates land in the final filesystem. -/
theorem C7_commit_partial_failure :
    (∀ (changes : List ChangeReq) (files : List (String × String))
       (sel : Option String),
      (commitChanges changes files sel).1.committed.length +
        (commitChanges changes files sel).1.errors.length = changes.length ∧
      ((commitChanges changes files sel).1.success = true ↔
        (commitChanges changes files sel).1.errors = [])) ∧
    commitChanges
        [⟨some "--a", some "9"⟩, ⟨some "--missing", some "x"⟩,
         ⟨some "--b", some "8"⟩]
        [("styles.css", ":root \x7b\n  --a: 1;\n  --b: 2;\n\x7d")] none =
      (⟨false,
        [⟨"--a", "styles.css", 2⟩, ⟨"--b", "styles.css", 3⟩],
        [⟨some "--missing", "Variable not found in any CSS file"⟩]⟩,
       [("styles.css", ":root \x7b\n  --a: 9;\n  --b: 8;\n\x7d")]) := by
  constructor
  · intro changes files sel
    refine ⟨processChanges_length sel changes files, ?_⟩
    simp [commitChanges, List.isEmpty_iff]
  · decide

theorem C7_commit_partial_failure_witness :
    (commitChanges [⟨some "--a", some "9"⟩]
        [("styles.css", ":root \x7b\n  --a: 1;\n\x7d")] none).1.committed.length +
      (commitChanges [⟨some "--a", some "9"⟩]
        [("styles.css", ":root \x7b\n  --a: 1;\n\x7d")] none).1.errors.length = 1 ∧
    ((commitChanges [⟨some "--a", some "9"⟩]
        [("styles.css", ":root \x7b\n  --a: 1;\n\x7d")] none).1.success = true ↔
      (commitChanges [⟨some "--a", some "9"⟩]
        [("styles.css", ":root \x7b\n  --a: 1;\n\x7d")] none).1.errors = []) :=
  C7_commit_partial_failure.1 [⟨some "--a", some "9"⟩]
    [("styles.css", ":root \x7b\n  --a: 1;\n\x7d")] none

/-- C8: the merged list starts with every direct-detection entry unchanged
    and in order; the appended tail holds exactly those cache-based entries
    whose variable name matches no direct-detection entry — so for a name
    present in both sources only the direct entry survives. -/
theorem C8_mergeVariables_direct_wins (d m : List VarRef) :
    ((mergeVariables d m).take d.length = d) ∧
    (∀ mv ∈ m, (∀ dv ∈ d, dv.varName ≠ mv.varName) →
      mv ∈ (mergeVariables d m).drop d.length) ∧
    (∀ mv, mv ∈ (mergeVariables d m).drop d.length →
      mv ∈ m ∧ ∀ dv ∈ d, dv.varName ≠ mv.varName) := by
  have htake : (mergeVariables d m).take d.length = d := by
    rw [mergeVariables, List.take_left]
  have hdrop : (mergeVariables d m).drop d.length =
      m.filter (fun mv => !((d.map (fun v => v.varName)).contains mv.varName)) := by
    rw [mergeVariables, List.drop_left]
  refine ⟨htake, ?_, ?_⟩
  · intro mv hmv hno
    rw [hdrop, List.mem_filter]
    refine ⟨hmv, ?_⟩
    simp [List.mem_map]
    intro dv hdv
    exact fun he => hno dv hdv he
  · intro mv hmv
    rw [hdrop, List.mem_filter] at hmv
    obtain ⟨h1, h2⟩ := hmv
    refine ⟨h1, ?_⟩
    intro dv hdv he
    simp at h2
    exact h2 dv hdv he

theorem C8_mergeVariables_direct_wins_witness :
    (⟨"--b", "color", "red", "var(--b)"⟩ : VarRef) ∈
      (mergeVariables [⟨"--a", "color", "blue", "var(--a)"⟩]
        [⟨"--b", "color", "red", "var(--b)"⟩]).drop 1 :=
  (C8_mergeVariables_direct_wins [⟨"--a", "color", "blue", "var(--a)"⟩]
      [⟨"--b", "color", "red", "var(--b)"⟩]).2.1
    ⟨"--b", "color", "red", "var(--b)"⟩ (by decide) (by decide)

/-- C9 (counterexample): `hide()` does not always increment the counter —
    when the popup is still hidden (a pending first `show`) it returns
    early — so the trace select-A, hide, resume-A commits A's stale
    resolution to the UI after the hide. -/
theorem C9_stale_commit_counterexample :
    stepE ⟨1, false, none⟩ PopupEvent.hide = ⟨1, false, none⟩ ∧
    runTrace ⟨0, false, none⟩
        [PopupEvent.showStart 7, PopupEvent.hide, PopupEvent.showResume 1 7] =
      ⟨1, true, some 7⟩ := by
  constructor <;> decide

/-- C9 (amended): every resumption point discards its result when the
    captured counter differs from the current one; `showSync`/`showStart`
    (re-selection) always increment the counter, `hide` increments it
    exactly when the popup is visible; the counter never decreases; hence
    a resumption whose capture was taken before a later re-selection, or
    before a `hide` of a then-visible popup, is a no-op. -/
theorem C9_request_counter_amended :
    (∀ (st : PopupState) (c t : Nat), c ≠ st.requestId →
      stepE st (.showResume c t) = st) ∧
    (∀ (st : PopupState) (t : Nat),
      (stepE st (.showSync t)).requestId = st.requestId + 1 ∧
      (stepE st (.showStart t)).requestId = st.requestId + 1) ∧
    (∀ st : PopupState, st.visible = true →
      (stepE st PopupEvent.hide).requestId = st.requestId + 1) ∧
    (∀ (st : PopupState) (es : List PopupEvent),
      st.requestId ≤ (runTrace st es).requestId) ∧
    (∀ (st : PopupState) (t0 : Nat) (mid : List PopupEvent) (c t : Nat),
      c = (stepE st (.showStart t0)).requestId →
      (∃ e ∈ mid, isSelect e) →
      stepE (runTrace (stepE st (.showStart t0)) mid) (.showResume c t) =
        runTrace (stepE st (.showStart t0)) mid) ∧
    (∀ (st1 : PopupState) (pre post : List PopupEvent) (c t : Nat),
      (runTrace st1 pre).visible = true →
      c ≤ (runTrace st1 pre).requestId →
      stepE (runTrace st1 (pre ++ PopupEvent.hide :: post)) (.showResume c t) =
        runTrace st1 (pre ++ PopupEvent.hide :: post)) := by
  have hdiscard : ∀ (st : PopupState) (c t : Nat), c ≠ st.requestId →
      stepE st (.showResume c t) = st := by
    intro st c t hc
    rw [stepE, if_neg hc]
  refine ⟨hdiscard, ?_, ?_, ?_, ?_, ?_⟩
  · intro st t
    constructor <;> simp [stepE]
  · intro st hv
    rw [stepE, if_pos hv]
  · intro st es
    exact runTrace_requestId_mono es st
  · intro st t0 mid c t hc ⟨e, he, hsel⟩
    apply hdiscard
    rw [hc]
    exact Nat.ne_of_lt (runTrace_select_strict mid (stepE st (.showStart t0)) e he hsel)
  · intro st1 pre post c t hv hc
    apply hdiscard
    have heq : runTrace st1 (pre ++ PopupEvent.hide :: post) =
        runTrace (stepE (runTrace st1 pre) PopupEvent.hide) post := by
      rw [runTrace, List.foldl_append]
      rfl
    rw [heq]
    have h1 : (stepE (runTrace st1 pre) PopupEvent.hide).requestId =
        (runTrace st1 pre).requestId + 1 := by
      rw [stepE, if_pos hv]
    have h2 := runTrace_requestId_mono post (stepE (runTrace st1 pre) PopupEvent.hide)
    omega

theorem C9_request_counter_amended_witness :
    stepE ⟨5, false, none⟩ (.showResume 3 1) = ⟨5, false, none⟩ :=
  C9_request_counter_amended.1 ⟨5, false, none⟩ 3 1 (by decide)

/-- C10: a rewritten declaration line is exactly the captured indent, the
    variable name, the captured colon separator, the new value and a
    semicolon; the input line decomposes as indent, name, separator, old
    value, semicolon, trailing text — and that trailing text is absent from
    the output. -/
theorem C10_rewrite_drops_trailing :
    (∀ (varName newValue line : List Char) (m : LineMatch),
      matchDeclLine varName line = some m →
      line = m.indent ++ varName ++ m.sep ++ m.value ++ ';' :: m.after ∧
      rewriteLine varName newValue m =
        m.indent ++ varName ++ m.sep ++ newValue ++ [';']) ∧
    (∀ (text varName newValue : String) (i : Nat) (hit : DeclHit),
      firstHit (scanLineHits varName.data (splitLines text.data) initState) =
        some (i, hit) →
      updateVariable text varName newValue none =
        ⟨List.asString (joinLines ((splitLines text.data).set i
            (hit.m.indent ++ varName.data ++ hit.m.sep ++ newValue.data ++ [';']))),
         true, 1⟩) := by
  constructor
  · intro varName newValue line m h
    exact ⟨matchDeclLine_decomp h, rfl⟩
  · intro text varName newValue i hit hfh
    rw [updateVariable_none_eq, hfh]
    rfl

/-- C3: with selector `"*"` every in-block declaration of the variable is
    rewritten and `occurrences` is their total count; with a specific
    selector exactly the declarations whose tracked enclosing selector
    equals it (plain string equality) are rewritten, while `occurrences`
    still counts every in-block declaration in the whole text. -/
theorem C3_updateVariable_selector_modes (text varName newValue : String) :
    (updateVariable text varName newValue (some "*") =
      ⟨(joinLines (List.zipWith (fun line h =>
          match h with
          | some hit => rewriteLine varName.data newValue.data hit.m
          | none => line)
        (splitLines text.data)
        (scanLineHits varName.data (splitLines text.data) initState))).asString,
       (scanLineHits varName.data (splitLines text.data) initState).any
         (fun h => h.isSome),
       countHits (scanLineHits varName.data (splitLines text.data) initState)⟩) ∧
    (∀ (s : String),
      (updateVariable text varName newValue (some s)).occurrences =
        countHits (scanLineHits varName.data (splitLines text.data) initState)) ∧
    (∀ (s : String), s ≠ "*" →
      updateVariable text varName newValue (some s) =
        ⟨(joinLines (List.zipWith (fun line h =>
            match h with
            | some hit =>
              if hit.sel = s.data then rewriteLine varName.data newValue.data hit.m
              else line
            | none => line)
          (splitLines text.data)
          (scanLineHits varName.data (splitLines text.data) initState))).asString,
         (scanLineHits varName.data (splitLines text.data) initState).any
           (fun h => match h with
             | some hit => hit.sel = s.data
             | none => false),
         countHits (scanLineHits varName.data (splitLines text.data) initState)⟩) := by
  refine ⟨?_, ?_, ?_⟩
  · rw [updateVariable_some_eq]
    have hz := zipWith_ext (rewriteSelected varName.data newValue.data ("*" : String).data)
      (fun line h =>
        match h with
        | some hit => rewriteLine varName.data newValue.data hit.m
        | none => line)
      (fun line h => by
        cases h with
        | none => rfl
        | some hit => simp [rewriteSelected])
      (splitLines text.data)
      (scanLineHits varName.data (splitLines text.data) initState)
    have ha := any_ext (selectedHit ("*" : String).data) (fun h => h.isSome)
      (fun h => by
        cases h with
        | none => rfl
        | some hit => simp [selectedHit])
      (scanLineHits varName.data (splitLines text.data) initState)
    rw [hz, ha]
  · intro s
    rw [updateVariable_some_eq]
  · intro s hs
    have hne : s.data ≠ ['*'] := by
      intro hd
      exact hs (String.ext hd)
    rw [updateVariable_some_eq]
    have hz := zipWith_ext (rewriteSelected varName.data newValue.data s.data)
      (fun line h =>
        match h with
        | some hit =>
          if hit.sel = s.data then rewriteLine varName.data newValue.data hit.m
          else line
        | none => line)
      (fun line h => by
        cases h with
        | none => rfl
        | some hit => simp [rewriteSelected, hne])
      (splitLines text.data)
      (scanLineHits varName.data (splitLines text.data) initState)
    have ha := any_ext (selectedHit s.data)
      (fun h => match h with
        | some hit => decide (hit.sel = s.data)
        | none => false)
      (fun h => by
        cases h with
        | none => rfl
        | some hit => simp [selectedHit, hne])
      (scanLineHits varName.data (splitLines text.data) initState)
    rw [hz, ha]

theorem C3_updateVariable_selector_modes_witness :
    updateVariable ":root \x7b\n  --x: 1;\n\x7d\n.dark \x7b\n  --x: 2;\n\x7d"
        "--x" "9" (some ".dark") =
      ⟨":root \x7b\n  --x: 1;\n\x7d\n.dark \x7b\n  --x: 9;\n\x7d", true, 2⟩ := by
  have h := (C3_updateVariable_selector_modes
      ":root \x7b\n  --x: 1;\n\x7d\n.dark \x7b\n  --x: 2;\n\x7d" "--x" "9").2.2
      ".dark" (by decide)
  rw [h]
  decide

theorem C10_rewrite_drops_trailing_witness :
    updateVariable ":root \x7b\n  --x: 1; /* old */\n\x7d" "--x" "2" none =
      ⟨":root \x7b\n  --x: 2;\n\x7d", true, 1⟩ := by
  have h := C10_rewrite_drops_trailing.2 ":root \x7b\n  --x: 1; /* old */\n\x7d"
    "--x" "2" 1
    ⟨⟨[' ', ' '], [':', ' '], ['1'], [' ', '/', '*', ' ', 'o', 'l', 'd', ' ', '*', '/']⟩,
      [':', 'r', 'o', 'o', 't']⟩ (by decide)
  rw [h]
  decide

end Ektachrome
